import Mathlib

/-!
Verification of the hierarchical KATO code matcher (`kato_matcher.py`).

The embedding models Python strings as `String`/`List Char`:
`str.lower` on the scripts present in the data (`lowerNat`/`pyLower`),
`str.strip`/`str.split` on whitespace (`pyStrip`/`pySplit`),
`str.replace` (`pyReplace`), the `in` substring test (`<:+:` on `.data`),
and Python `dict`s as insertion-ordered association lists (`dinsert`).
`None` results are `Option.none`.
-/

namespace Kato

/-- Python whitespace (`str.split()` / `str.strip()` with no arguments):
ASCII whitespace plus the Unicode space separators recognised by `str.isspace`. -/
def isPySpace (c : Char) : Bool :=
  c = ' ' || c = '\t' || c = '\n' || c = '\r' ||
  c.toNat = 0x0B || c.toNat = 0x0C ||
  c.toNat = 0x1C || c.toNat = 0x1D || c.toNat = 0x1E || c.toNat = 0x1F ||
  c.toNat = 0x85 || c.toNat = 0xA0 || c.toNat = 0x1680 ||
  (0x2000 ≤ c.toNat && c.toNat ≤ 0x200A) ||
  c.toNat = 0x2028 || c.toNat = 0x2029 ||
  c.toNat = 0x202F || c.toNat = 0x205F || c.toNat = 0x3000

/-- Python `str.lower` on one code point, for the scripts occurring in KATO
data: ASCII Latin, the basic Cyrillic block (`А..Я`, `Ё`-row), and the
Cyrillic extensions (Kazakh `Ә Ғ Қ Ң Ө Ұ Ү Һ`, paired even/odd letters). -/
def lowerNat (n : Nat) : Nat :=
  if 0x41 ≤ n ∧ n ≤ 0x5A then n + 0x20
  else if 0x410 ≤ n ∧ n ≤ 0x42F then n + 0x20
  else if 0x400 ≤ n ∧ n ≤ 0x40F then n + 0x50
  else if 0x460 ≤ n ∧ n ≤ 0x52F ∧ n % 2 = 0 then n + 1
  else n

/-- `str.lower` on a character. -/
def pyLower (c : Char) : Char := Char.ofNat (lowerNat c.toNat)

/-- `str.lower` on a whole string (character list). -/
def lowerL (l : List Char) : List Char := l.map pyLower

/-- `str.strip()`: drop leading and trailing whitespace. -/
def pyStrip (l : List Char) : List Char :=
  ((l.dropWhile isPySpace).reverse.dropWhile isPySpace).reverse

/-- Worker for `pySplit`: `acc` holds the reversed current word. -/
def pySplitGo : List Char → List Char → List (List Char)
  | acc, [] => if acc = [] then [] else [acc.reverse]
  | acc, c :: cs =>
    if isPySpace c then
      if acc = [] then pySplitGo [] cs else acc.reverse :: pySplitGo [] cs
    else pySplitGo (c :: acc) cs

/-- Python `str.split()` with no argument: split on whitespace runs,
no empty words. -/
def pySplit (l : List Char) : List (List Char) := pySplitGo [] l

/-- `' '.join(words)`. -/
def joinSpace : List (List Char) → List Char := List.intercalate [' ']

/-- The abbreviation dictionary of `_normalize_name`, in source order. -/
def abbreviations : List (List Char × List Char) :=
  [("р-н".data, "район".data),
   ("р-на".data, "района".data),
   ("р-ну".data, "району".data),
   ("р.".data, "район".data),
   ("обл.".data, "область".data),
   ("обл".data, "область".data),
   ("г.".data, "город".data),
   ("г".data, "город".data),
   ("с.".data, "село".data),
   ("с".data, "село".data),
   ("п.".data, "поселок".data),
   ("п".data, "поселок".data),
   ("а.".data, "аул".data),
   ("а".data, "аул".data),
   ("кент".data, "кент".data),
   ("ауыл".data, "село".data)]

/-- Per-word abbreviation expansion: exact dictionary hit or the word itself. -/
def expandWord (w : List Char) : List Char :=
  match abbreviations.find? (fun kv => decide (kv.1 = w)) with
  | some kv => kv.2
  | none => w

/-- `KatoMatcher._normalize_name` on a character list: lowercase, strip,
split into words, expand each abbreviation, rejoin with single spaces. -/
def normalizeChars (l : List Char) : List Char :=
  joinSpace ((pySplit (pyStrip (lowerL l))).map expandWord)

/-- `KatoMatcher._normalize_name`. -/
def normalize_name (s : String) : String := ⟨normalizeChars s.data⟩

/-- Worker for `pyReplace`, structurally recursive on a fuel bound (one unit
of fuel is spent per consumed character, so `l.length` fuel is exact):
at each position, if `old` matches, emit `new` and skip past the match,
otherwise keep the character — Python's left-to-right greedy `str.replace`. -/
def replaceGo (old new : List Char) : Nat → List Char → List Char
  | 0, l => l
  | _ + 1, [] => []
  | fuel + 1, c :: cs =>
    if old ≠ [] ∧ old <+: (c :: cs) then
      new ++ replaceGo old new fuel (List.drop old.length (c :: cs))
    else c :: replaceGo old new fuel cs

/-- Python `s.replace(old, new)` for non-empty `old` (the matcher only
replaces non-empty alias strings). -/
def pyReplace (l old new : List Char) : List Char := replaceGo old new l.length l

/-- The `name_aliases` dictionary of `find_kato_code`, in source order. -/
def name_aliases : List (List Char × List Char) :=
  [("нур-султан".data, "астана".data),
   ("нұр-сұлтан".data, "астана".data)]

/-- The root marker skipped by `find_kato_code` (`'республика казахстан'`). -/
def rootMarker : List Char := "республика казахстан".data

/-- The alias loop of `find_kato_code`: for each alias in order, if the
string contains it, replace every occurrence. -/
def applyAliases (n : List Char) : List Char :=
  name_aliases.foldl
    (fun acc kv => if kv.1 <:+: acc then pyReplace acc kv.1 kv.2 else acc) n

/-- The filtering loop of `find_kato_code`: normalize every query name, drop
those containing the root marker, apply aliases to the rest, keep order. -/
def filterNames (names : List String) : List (List Char) :=
  names.foldr
    (fun s acc =>
      let nn := normalizeChars s.data
      if rootMarker <:+: nn then acc else applyAliases nn :: acc) []

/-- One reference row: `(code, name_ru, parent_code, level)` as selected from
the `katoCode` table.  A SQL `NULL` parent is `none`. -/
structure KatoRecord where
  code : String
  name_ru : String
  parent_code : Option String
  level : Nat
deriving DecidableEq, Repr

/-- One entry of `kato_by_code` (the `children` mapping is represented
separately by `childrenOf`, keyed by the parent's code). -/
structure Node where
  code : String
  name_ru : String
  normalized_name : List Char
  parent_code : Option String
  level : Nat
deriving DecidableEq, Repr

/-- Python `dict` insertion: an existing key keeps its position and gets the
new value, a fresh key is appended. -/
def dinsert {κ β : Type} [DecidableEq κ] (k : κ) (v : β) :
    List (κ × β) → List (κ × β)
  | [] => [(k, v)]
  | (k', v') :: rest =>
    if k' = k then (k, v) :: rest else (k', v') :: dinsert k v rest

/-- Python `dict` lookup / `in` test (`none` when the key is absent). -/
def lookupD {κ β : Type} [DecidableEq κ] (l : List (κ × β)) (k : κ) : Option β :=
  (l.find? (fun e => decide (e.1 = k))).map (·.2)

/-- Python truthiness of an optional string: `None` and `''` are falsy. -/
def strTruthy : Option String → Bool
  | none => false
  | some s => decide (s ≠ "")

/-- First loading pass: one `Node` per row, normalized name computed once. -/
def mkNode (r : KatoRecord) : Node :=
  { code := r.code, name_ru := r.name_ru,
    normalized_name := normalizeChars r.name_ru.data,
    parent_code := r.parent_code, level := r.level }

/-- First loading pass of `_load_kato_data`: build the flat `kato_by_code`
index in row order. -/
def buildFlat (records : List KatoRecord) : List (String × Node) :=
  records.foldl (fun acc r => dinsert r.code (mkNode r) acc) []

/-- Second loading pass, root side: a node lands in `kato_tree` (keyed by its
normalized name) exactly when its `parent_code` is falsy (`NULL` or `''`). -/
def rootsOf (flat : List (String × Node)) : List (List Char × String) :=
  flat.foldl
    (fun acc kv =>
      if strTruthy kv.2.parent_code then acc
      else dinsert kv.2.normalized_name kv.2.code acc) []

/-- Does this node go into the `children` mapping of the node at key `p`?
(Second-pass condition: truthy `parent_code` that is a key of the flat index
and equals `p`.) -/
def isChildOf (flat : List (String × Node)) (p : String) (nd : Node) : Bool :=
  match nd.parent_code with
  | some pc => decide (pc ≠ "") && (lookupD flat pc).isSome && decide (pc = p)
  | none => false

/-- Second loading pass, child side: the `children` mapping of the node
stored at key `p`, keyed by normalized child name (last writer wins). -/
def childrenOf (flat : List (String × Node)) (p : String) :
    List (List Char × String) :=
  flat.foldl
    (fun acc kv =>
      if isChildOf flat p kv.2 then dinsert kv.2.normalized_name kv.2.code acc
      else acc) []

/-- The matcher state after `_load_kato_data`: the flat index and the
root-level mapping (children mappings are recovered via `childrenOf`). -/
structure KatoMatcher where
  kato_by_code : List (String × Node)
  kato_tree : List (List Char × String)
deriving Repr

/-- `KatoMatcher._load_kato_data`, with the database snapshot passed in as
the record list (row order = `ORDER BY level, code`). -/
def load_kato_data (records : List KatoRecord) : KatoMatcher :=
  { kato_by_code := buildFlat records, kato_tree := rootsOf (buildFlat records) }

/-- Substring match, either direction (Python `a in b or b in a`). -/
def substrB (a b : List Char) : Bool := decide (a <:+: b) || decide (b <:+: a)

/-- Token-overlap fuzzy match: the two names share at least one word. -/
def tokensOverlapB (a b : List Char) : Bool :=
  (pySplit a).any (fun w => (pySplit b).contains w)

/-- First frontier entry matching by substring, returning its code. -/
def substrFind (frontier : List (List Char × String)) (name : List Char) :
    Option String :=
  (frontier.find? (fun e => substrB name e.1)).map (·.2)

/-- First frontier entry matching by token overlap, returning its code. -/
def fuzzyFind (frontier : List (List Char × String)) (name : List Char) :
    Option String :=
  (frontier.find? (fun e => tokensOverlapB name e.1)).map (·.2)

/-- Global fallback scan over the whole flat index: first node whose
normalized name has a substring overlap with the query name. -/
def globalFind (flat : List (String × Node)) (name : List Char) : Option String :=
  (flat.find? (fun kv => substrB name kv.2.normalized_name)).map (fun kv => kv.2.code)

/-- The traversal loop of `find_kato_code` over the filtered names.
`frontier` is the current level's sibling mapping, `last` the final filtered
name (the loop compares the current name to `filtered_names[-1]` by string
equality), `matched` the best match so far. -/
def walk (flat : List (String × Node)) :
    List (List Char × String) → List (List Char) → List Char →
    Option String → Option String
  | _, [], _, matched => matched
  | frontier, name :: rest, last, matched =>
    match substrFind frontier name with
    | some c => walk flat (childrenOf flat c) rest last (some c)
    | none =>
      match fuzzyFind frontier name with
      | some c => walk flat (childrenOf flat c) rest last (some c)
      | none =>
        if name = last then
          match globalFind flat name with
          | some c => some c
          | none => if strTruthy matched then matched else walk flat frontier rest last matched
        else if strTruthy matched then matched else walk flat frontier rest last matched

/-- `KatoMatcher.find_kato_code`: empty query and fully-filtered query give
`None`; otherwise walk the tree from the root mapping. -/
def find_kato_code (m : KatoMatcher) (kato_names : List String) : Option String :=
  match kato_names with
  | [] => none
  | _ :: _ =>
    match filterNames kato_names with
    | [] => none
    | f :: fs =>
      walk m.kato_by_code m.kato_tree (f :: fs)
        ((f :: fs).getLast (List.cons_ne_nil f fs)) none

/-- `KatoMatcher.find_by_parent`: `None` for an unknown parent code,
otherwise the first direct child with a substring overlap. -/
def find_by_parent (m : KatoMatcher) (parent_code name : String) : Option String :=
  match lookupD m.kato_by_code parent_code with
  | none => none
  | some _ =>
    ((childrenOf m.kato_by_code parent_code).find?
        (fun e => substrB (normalizeChars name.data) e.1)).map (·.2)

/-- The traversal loop as claim C2 reads it: the global fallback fires when
the current name is the last *by position* (`rest = []`), not by string
equality.  Kept solely to compare with the faithful `walk`. -/
def walkByPosition (flat : List (String × Node)) :
    List (List Char × String) → List (List Char) → Option String → Option String
  | _, [], matched => matched
  | frontier, name :: rest, matched =>
    match substrFind frontier name with
    | some c => walkByPosition flat (childrenOf flat c) rest (some c)
    | none =>
      match fuzzyFind frontier name with
      | some c => walkByPosition flat (childrenOf flat c) rest (some c)
      | none =>
        if rest = [] then
          match globalFind flat name with
          | some c => some c
          | none => if strTruthy matched then matched else walkByPosition flat frontier rest matched
        else if strTruthy matched then matched else walkByPosition flat frontier rest matched

/-- `find_kato_code` as claim C2 reads it (positional last-name test). -/
def find_kato_code_by_position (m : KatoMatcher) (kato_names : List String) :
    Option String :=
  match kato_names with
  | [] => none
  | _ :: _ =>
    match filterNames kato_names with
    | [] => none
    | f :: fs => walkByPosition m.kato_by_code m.kato_tree (f :: fs) none

/-! Concrete hierarchies used by several claims. -/

/-- The three-record hierarchy of the spec's exact-path / partial-path tests. -/
def exRecords : List KatoRecord :=
  [⟨"R", "Казахстан", none, 0⟩,
   ⟨"A", "Кызылординская область", some "R", 1⟩,
   ⟨"B", "Шиелі район", some "A", 2⟩]

/-- Matcher built from `exRecords`. -/
def exM : KatoMatcher := load_kato_data exRecords

/-- Hierarchy with a duplicated query name: `qqq` sits two levels below the
root, and the query repeats `qqq` so that a *non-last* position carries a
name string-equal to the last one. -/
def dupRecords : List KatoRecord :=
  [⟨"R", "казахстан", none, 0⟩,
   ⟨"A", "aaa", some "R", 1⟩,
   ⟨"Z", "qqq", some "A", 2⟩]

/-- Matcher built from `dupRecords`. -/
def dupM : KatoMatcher := load_kato_data dupRecords

/-- Query whose middle name fails at its level but equals the last name. -/
def dupQuery : List String := ["казахстан", "qqq", "qqq"]

/-- Records with an orphan: `X`'s parent code `MISSING` resolves to no
record. -/
def c1Records : List KatoRecord :=
  [⟨"R", "Казахстан", none, 0⟩,
   ⟨"X", "Орфан", some "MISSING", 1⟩]

/-- One-record hierarchy for the renamed capital. -/
def astRecords : List KatoRecord := [⟨"C", "Астана", none, 0⟩]

/-- Matcher built from `astRecords`. -/
def astM : KatoMatcher := load_kato_data astRecords

/-- Hierarchy whose single (root) name is what the alias loop makes of a
string in which a `нур-султан` occurrence overlaps a `нұр-сұлтан`
occurrence (they share the middle `н`). -/
def trapRecords : List KatoRecord := [⟨"Q1", "астанаұр-сұлтан", none, 0⟩]

/-- Matcher built from `trapRecords`. -/
def trapM : KatoMatcher := load_kato_data trapRecords

/-! Dictionary (`dinsert`) and construction-fold lemmas. -/

theorem mem_dinsert {κ β : Type} [DecidableEq κ] {e : κ × β} {k : κ} {v : β} :
    ∀ {l : List (κ × β)}, e ∈ dinsert k v l → e = (k, v) ∨ e ∈ l := by
  intro l
  induction l with
  | nil => intro h; simpa [dinsert] using h
  | cons kv rest ih =>
    intro h
    by_cases hk : kv.1 = k
    · rw [show dinsert k v (kv :: rest) = (k, v) :: rest by
        simp [dinsert, hk]] at h
      rcases List.mem_cons.mp h with h | h
      · exact Or.inl h
      · exact Or.inr (List.mem_cons_of_mem kv h)
    · rw [show dinsert k v (kv :: rest) = kv :: dinsert k v rest by
        simp [dinsert, hk]] at h
      rcases List.mem_cons.mp h with h | h
      · exact Or.inr (h ▸ List.mem_cons_self kv rest)
      · rcases ih h with h | h
        · exact Or.inl h
        · exact Or.inr (List.mem_cons_of_mem kv h)

theorem keys_dinsert {κ β : Type} [DecidableEq κ] (k a : κ) (v : β) :
    ∀ (l : List (κ × β)),
      a ∈ (dinsert k v l).map Prod.fst ↔ a = k ∨ a ∈ l.map Prod.fst := by
  intro l
  induction l with
  | nil => simp [dinsert]
  | cons kv rest ih =>
    by_cases hk : kv.1 = k
    · rw [show dinsert k v (kv :: rest) = (k, v) :: rest by simp [dinsert, hk]]
      simp [hk]
    · rw [show dinsert k v (kv :: rest) = kv :: dinsert k v rest by
        simp [dinsert, hk]]
      simp [ih]
      tauto

theorem keys_nodup_dinsert {κ β : Type} [DecidableEq κ] (k : κ) (v : β) :
    ∀ {l : List (κ × β)}, (l.map Prod.fst).Nodup →
      ((dinsert k v l).map Prod.fst).Nodup := by
  intro l
  induction l with
  | nil => intro _; simp [dinsert]
  | cons kv rest ih =>
    intro h
    rw [List.map_cons, List.nodup_cons] at h
    by_cases hk : kv.1 = k
    · rw [show dinsert k v (kv :: rest) = (k, v) :: rest by simp [dinsert, hk]]
      rw [List.map_cons, List.nodup_cons]
      exact ⟨hk ▸ h.1, h.2⟩
    · rw [show dinsert k v (kv :: rest) = kv :: dinsert k v rest by
        simp [dinsert, hk]]
      rw [List.map_cons, List.nodup_cons]
      refine ⟨fun hc => ?_, ih h.2⟩
      rcases (keys_dinsert k kv.1 v rest).mp hc with hc | hc
      · exact hk hc
      · exact h.1 hc

/-- In a list with no duplicate keys, a key determines its value. -/
theorem value_unique {κ β : Type} {k : κ} {v v' : β} :
    ∀ {l : List (κ × β)}, (l.map Prod.fst).Nodup →
      (k, v) ∈ l → (k, v') ∈ l → v = v' := by
  intro l
  induction l with
  | nil => intro _ h; exact absurd h (List.not_mem_nil _)
  | cons kv rest ih =>
    intro hnd h1 h2
    rw [List.map_cons, List.nodup_cons] at hnd
    rcases List.mem_cons.mp h1 with h1 | h1 <;>
      rcases List.mem_cons.mp h2 with h2 | h2
    · exact congrArg Prod.snd (h1.trans h2.symm)
    · exact absurd (List.mem_map_of_mem Prod.fst h2)
        (by rw [← h1] at hnd; exact hnd.1)
    · exact absurd (List.mem_map_of_mem Prod.fst h1)
        (by rw [← h2] at hnd; exact hnd.1)
    · exact ih hnd.2 h1 h2

/-- Generic extraction from the construction folds: every entry of the
accumulated dictionary comes from the start accumulator or from a list
element passing the guard. -/
theorem foldl_dinsert_mem {α κ β : Type} [DecidableEq κ]
    (P : α → Bool) (f : α → κ) (g : α → β) :
    ∀ (l : List α) (acc : List (κ × β)) (e : κ × β),
      e ∈ l.foldl (fun a x => if P x then dinsert (f x) (g x) a else a) acc →
      e ∈ acc ∨ ∃ x ∈ l, P x = true ∧ e.1 = f x ∧ e.2 = g x := by
  intro l
  induction l with
  | nil => intro acc e h; exact Or.inl h
  | cons x xs ih =>
    intro acc e h
    rw [List.foldl_cons] at h
    rcases ih _ e h with h' | ⟨x', hx', hP, h1, h2⟩
    · by_cases hp : P x
      · rw [if_pos hp] at h'
        rcases mem_dinsert h' with he | he
        · exact Or.inr ⟨x, List.mem_cons_self x xs, hp,
            by rw [he], by rw [he]⟩
        · exact Or.inl he
      · rw [if_neg hp] at h'
        exact Or.inl h'
    · exact Or.inr ⟨x', List.mem_cons_of_mem x hx', hP, h1, h2⟩

/-- Keys already present survive the construction folds. -/
theorem foldl_dinsert_keys_mono {α κ β : Type} [DecidableEq κ]
    (P : α → Bool) (f : α → κ) (g : α → β) :
    ∀ (l : List α) (acc : List (κ × β)) (a : κ),
      a ∈ acc.map Prod.fst →
      a ∈ (l.foldl (fun ac x => if P x then dinsert (f x) (g x) ac else ac)
            acc).map Prod.fst := by
  intro l
  induction l with
  | nil => intro acc a h; exact h
  | cons x xs ih =>
    intro acc a h
    rw [List.foldl_cons]
    apply ih
    by_cases hp : P x
    · rw [if_pos hp]
      exact (keys_dinsert (f x) a (g x) acc).mpr (Or.inr h)
    · rwa [if_neg hp]

/-- An element passing the guard leaves its key in the accumulated
dictionary. -/
theorem foldl_dinsert_key_mem {α κ β : Type} [DecidableEq κ]
    (P : α → Bool) (f : α → κ) (g : α → β) :
    ∀ (l : List α) (acc : List (κ × β)) (x : α), x ∈ l → P x = true →
      f x ∈ (l.foldl (fun ac y => if P y then dinsert (f y) (g y) ac else ac)
            acc).map Prod.fst := by
  intro l
  induction l with
  | nil => intro acc x h; exact absurd h (List.not_mem_nil x)
  | cons y ys ih =>
    intro acc x hx hP
    rw [List.foldl_cons]
    rcases List.mem_cons.mp hx with hx | hx
    · subst hx
      apply foldl_dinsert_keys_mono
      rw [if_pos hP]
      exact (keys_dinsert (f x) (f x) (g x) acc).mpr (Or.inl rfl)
    · exact ih _ x hx hP

/-- `buildFlat` rewritten into the guarded-fold shape. -/
theorem buildFlat_eq_guarded (records : List KatoRecord) :
    buildFlat records =
      records.foldl
        (fun a r => if (fun _ => true) r then dinsert r.code (mkNode r) a else a)
        [] := by
  simp [buildFlat]

/-- `rootsOf` rewritten into the guarded-fold shape. -/
theorem rootsOf_eq_guarded (flat : List (String × Node)) :
    rootsOf flat =
      flat.foldl
        (fun a kv => if !strTruthy kv.2.parent_code then
          dinsert kv.2.normalized_name kv.2.code a else a)
        [] := by
  unfold rootsOf
  congr 1
  funext a kv
  cases h : strTruthy kv.2.parent_code <;> simp [h]

/-- Every flat-index entry is `mkNode` of some input record, keyed by its
code. -/
theorem mem_buildFlat {records : List KatoRecord} {e : String × Node}
    (h : e ∈ buildFlat records) :
    ∃ r ∈ records, e.1 = r.code ∧ e.2 = mkNode r := by
  rw [buildFlat_eq_guarded] at h
  rcases foldl_dinsert_mem _ _ _ records [] e h with h | ⟨r, hr, _, h1, h2⟩
  · exact absurd h (List.not_mem_nil e)
  · exact ⟨r, hr, h1, h2⟩

/-- Every root-mapping entry comes from a flat-index node with falsy
`parent_code`, keyed by its normalized name and valued by its code. -/
theorem mem_rootsOf {flat : List (String × Node)} {e : List Char × String}
    (h : e ∈ rootsOf flat) :
    ∃ kv ∈ flat, strTruthy kv.2.parent_code = false ∧
      e.1 = kv.2.normalized_name ∧ e.2 = kv.2.code := by
  rw [rootsOf_eq_guarded] at h
  rcases foldl_dinsert_mem _ _ _ flat [] e h with h | ⟨kv, hkv, hP, h1, h2⟩
  · exact absurd h (List.not_mem_nil e)
  · exact ⟨kv, hkv, by simpa using hP, h1, h2⟩

/-- Every children-mapping entry comes from a flat-index node satisfying the
child condition for that parent. -/
theorem mem_childrenOf {flat : List (String × Node)} {p : String}
    {e : List Char × String} (h : e ∈ childrenOf flat p) :
    ∃ kv ∈ flat, isChildOf flat p kv.2 = true ∧
      e.1 = kv.2.normalized_name ∧ e.2 = kv.2.code := by
  unfold childrenOf at h
  rcases foldl_dinsert_mem _ _ _ flat [] e h with h | ⟨kv, hkv, hP, h1, h2⟩
  · exact absurd h (List.not_mem_nil e)
  · exact ⟨kv, hkv, hP, h1, h2⟩

/-- The flat index stores each node under its own `code` field. -/
theorem buildFlat_code_eq_key {records : List KatoRecord} {e : String × Node}
    (h : e ∈ buildFlat records) : e.2.code = e.1 := by
  rcases mem_buildFlat h with ⟨r, _, h1, h2⟩
  rw [h1, h2]
  rfl

/-- The flat index has no duplicate keys. -/
theorem buildFlat_keys_nodup (records : List KatoRecord) :
    ((buildFlat records).map Prod.fst).Nodup := by
  suffices H : ∀ (l : List KatoRecord) (acc : List (String × Node)),
      (acc.map Prod.fst).Nodup →
      ((l.foldl (fun a r => dinsert r.code (mkNode r) a) acc).map
        Prod.fst).Nodup by
    exact H records [] (by simp)
  intro l
  induction l with
  | nil => intro acc h; exact h
  | cons r rs ih =>
    intro acc h
    rw [List.foldl_cons]
    exact ih _ (keys_nodup_dinsert r.code (mkNode r) h)

/-! Normalization lemmas (for the idempotence claim). -/

theorem lowerNat_idem (n : Nat) : lowerNat (lowerNat n) = lowerNat n := by
  unfold lowerNat
  split_ifs <;> omega

theorem lowerNat_valid {n : Nat} (h : n.isValidChar) :
    (lowerNat n).isValidChar := by
  unfold lowerNat
  rcases h with h | h
  · split_ifs <;> exact Or.inl (by omega)
  · split_ifs <;> [skip; skip; skip; skip; exact Or.inr (by omega)] <;> omega

theorem toNat_ofNat_valid (n : Nat) (h : n.isValidChar) :
    (Char.ofNat n).toNat = n := by
  simp [Char.ofNat, dif_pos h, Char.ofNatAux, Char.toNat, UInt32.toNat,
    BitVec.toNat_ofNatLt]

theorem pyLower_idem (c : Char) : pyLower (pyLower c) = pyLower c := by
  unfold pyLower
  rw [toNat_ofNat_valid (lowerNat c.toNat) (lowerNat_valid c.valid),
    lowerNat_idem]

/-- Words produced by `pySplitGo` over a non-space accumulator are nonempty,
space-free, and drawn from the accumulator or the input. -/
theorem pySplitGo_sound :
    ∀ (l acc : List Char), (∀ c ∈ acc, isPySpace c = false) →
      ∀ w ∈ pySplitGo acc l,
        w ≠ [] ∧ ∀ c ∈ w, isPySpace c = false ∧ (c ∈ acc ∨ c ∈ l) := by
  intro l
  induction l with
  | nil =>
    intro acc hacc w hw
    by_cases h : acc = []
    · rw [pySplitGo, if_pos h] at hw
      exact absurd hw (List.not_mem_nil w)
    · rw [pySplitGo, if_neg h] at hw
      rcases List.mem_singleton.mp hw with rfl
      refine ⟨by simpa using h, fun c hc => ?_⟩
      rw [List.mem_reverse] at hc
      exact ⟨hacc c hc, Or.inl hc⟩
  | cons a cs ih =>
    intro acc hacc w hw
    by_cases hsp : isPySpace a
    · rw [pySplitGo, if_pos hsp] at hw
      by_cases h : acc = []
      · rw [if_pos h] at hw
        rcases ih [] (by simp) w hw with ⟨h1, h2⟩
        refine ⟨h1, fun c hc => ?_⟩
        rcases h2 c hc with ⟨h3, h4 | h4⟩
        · exact absurd h4 (List.not_mem_nil c)
        · exact ⟨h3, Or.inr (List.mem_cons_of_mem a h4)⟩
      · rw [if_neg h] at hw
        rcases List.mem_cons.mp hw with rfl | hw
        · refine ⟨by simpa using h, fun c hc => ?_⟩
          rw [List.mem_reverse] at hc
          exact ⟨hacc c hc, Or.inl hc⟩
        · rcases ih [] (by simp) w hw with ⟨h1, h2⟩
          refine ⟨h1, fun c hc => ?_⟩
          rcases h2 c hc with ⟨h3, h4 | h4⟩
          · exact absurd h4 (List.not_mem_nil c)
          · exact ⟨h3, Or.inr (List.mem_cons_of_mem a h4)⟩
    · rw [pySplitGo, if_neg hsp] at hw
      have hacc' : ∀ c ∈ a :: acc, isPySpace c = false := by
        intro c hc
        rcases List.mem_cons.mp hc with rfl | hc
        · exact Bool.not_eq_true _ ▸ (by simpa using hsp)
        · exact hacc c hc
      rcases ih (a :: acc) hacc' w hw with ⟨h1, h2⟩
      refine ⟨h1, fun c hc => ?_⟩
      rcases h2 c hc with ⟨h3, h4⟩
      rcases h4 with h4 | h4
      · rcases List.mem_cons.mp h4 with rfl | h4
        · exact ⟨h3, Or.inr (List.mem_cons_self c cs)⟩
        · exact ⟨h3, Or.inl h4⟩
      · exact ⟨h3, Or.inr (List.mem_cons_of_mem a h4)⟩

/-- Characters of a stripped list come from the original list. -/
theorem mem_pyStrip {c : Char} {l : List Char} (h : c ∈ pyStrip l) : c ∈ l := by
  unfold pyStrip at h
  rw [List.mem_reverse] at h
  have h1 := (List.dropWhile_sublist (l := (l.dropWhile isPySpace).reverse)
    (p := isPySpace)).mem h
  rw [List.mem_reverse] at h1
  exact (List.dropWhile_sublist (l := l) (p := isPySpace)).mem h1

theorem joinSpace_nil : joinSpace [] = [] := rfl

theorem joinSpace_single (t : List Char) : joinSpace [t] = t := by
  simp [joinSpace, List.intercalate]

theorem joinSpace_cons₂ (t t' : List Char) (rest : List (List Char)) :
    joinSpace (t :: t' :: rest) = t ++ ' ' :: joinSpace (t' :: rest) := by
  simp [joinSpace, List.intercalate, List.intersperse]

/-- Lowercasing fixes a join of lowercase-fixed words. -/
theorem lowerL_joinSpace :
    ∀ (ts : List (List Char)), (∀ t ∈ ts, ∀ c ∈ t, pyLower c = c) →
      lowerL (joinSpace ts) = joinSpace ts := by
  intro ts
  induction ts with
  | nil => intro _; rfl
  | cons t rest ih =>
    intro h
    have hfix : lowerL t = t :=
      List.map_congr_left (fun c hc => h t (List.mem_cons_self t rest) c hc)
        |>.trans (List.map_id t)
    cases rest with
    | nil => rw [joinSpace_single]; exact hfix
    | cons t' rest' =>
      rw [joinSpace_cons₂]
      show lowerL (t ++ ' ' :: joinSpace (t' :: rest')) = _
      rw [lowerL, List.map_append, List.map_cons]
      rw [show pyLower ' ' = ' ' from by decide]
      rw [show (joinSpace (t' :: rest')).map pyLower =
        joinSpace (t' :: rest') from
        ih (fun u hu c hc => h u (List.mem_cons_of_mem t hu) c hc)]
      exact congrArg (· ++ ' ' :: joinSpace (t' :: rest')) hfix

/-- Splitting ignores leading whitespace. -/
theorem pySplitGo_dropWhile :
    ∀ (l : List Char), pySplitGo [] (l.dropWhile isPySpace) = pySplitGo [] l := by
  intro l
  induction l with
  | nil => rfl
  | cons c cs ih =>
    by_cases h : isPySpace c
    · rw [List.dropWhile_cons_of_pos h, ih, pySplitGo, if_pos h, if_pos rfl]
    · rw [List.dropWhile_cons_of_neg (by simpa using h)]

/-- On an all-space list the splitter just flushes the accumulator. -/
theorem pySplitGo_allspace :
    ∀ (z : List Char), (∀ c ∈ z, isPySpace c = true) →
      ∀ acc, pySplitGo acc z = if acc = [] then [] else [acc.reverse] := by
  intro z
  induction z with
  | nil => intro _ acc; rfl
  | cons c z' ih =>
    intro h acc
    have hc : isPySpace c = true := h c (List.mem_cons_self c z')
    have hz' : ∀ c ∈ z', isPySpace c = true :=
      fun x hx => h x (List.mem_cons_of_mem c hx)
    rw [pySplitGo, if_pos hc]
    by_cases ha : acc = []
    · rw [if_pos ha, ih hz' [], if_pos rfl, if_pos ha]
    · rw [if_neg ha, ih hz' [], if_pos rfl, if_neg ha]

/-- A tail that behaves like the empty list can be appended without changing
the split. -/
theorem pySplitGo_append_irrelevant {z : List Char}
    (hz : ∀ acc, pySplitGo acc z = if acc = [] then [] else [acc.reverse]) :
    ∀ (y : List Char) (acc : List Char),
      pySplitGo acc (y ++ z) = pySplitGo acc y := by
  intro y
  induction y with
  | nil => intro acc; rw [List.nil_append, hz acc]; rfl
  | cons c y' ih =>
    intro acc
    rw [List.cons_append, pySplitGo, pySplitGo]
    by_cases h : isPySpace c
    · rw [if_pos h, if_pos h]
      by_cases ha : acc = []
      · rw [if_pos ha, if_pos ha, ih]
      · rw [if_neg ha, if_neg ha, ih]
    · rw [if_neg h, if_neg h, ih]

/-- Stripping never changes the split. -/
theorem pySplit_pyStrip (l : List Char) : pySplit (pyStrip l) = pySplit l := by
  unfold pySplit
  set x := l.dropWhile isPySpace with hx
  have hdecomp : x = pyStrip l ++ (x.reverse.takeWhile isPySpace).reverse := by
    unfold pyStrip
    rw [← hx, ← List.reverse_append, List.takeWhile_append_dropWhile,
      List.reverse_reverse]
  have hallspace : ∀ c ∈ (x.reverse.takeWhile isPySpace).reverse,
      isPySpace c = true := by
    intro c hc
    rw [List.mem_reverse] at hc
    exact List.mem_takeWhile_imp hc
  calc pySplitGo [] (pyStrip l)
      = pySplitGo [] (pyStrip l ++ (x.reverse.takeWhile isPySpace).reverse) :=
        (pySplitGo_append_irrelevant
          (pySplitGo_allspace _ hallspace) (pyStrip l) []).symm
    _ = pySplitGo [] x := by rw [← hdecomp]
    _ = pySplitGo [] l := by rw [hx, pySplitGo_dropWhile]

/-- Consuming one nonempty space-free word moves it into the accumulator. -/
theorem pySplitGo_token :
    ∀ (t : List Char), t ≠ [] → (∀ c ∈ t, isPySpace c = false) →
      ∀ (rest acc : List Char),
        pySplitGo acc (t ++ rest) = pySplitGo (t.reverse ++ acc) rest := by
  intro t
  induction t with
  | nil => intro h; exact absurd rfl h
  | cons c t' ih =>
    intro _ hsf rest acc
    have hc : isPySpace c = false := hsf c (List.mem_cons_self c t')
    rw [List.cons_append, pySplitGo, if_neg (by simp [hc])]
    cases ht' : t' with
    | nil => simp
    | cons d t'' =>
      rw [← ht', ih (by rw [ht']; simp)
        (fun x hx => hsf x (List.mem_cons_of_mem c hx)) rest (c :: acc)]
      rw [List.reverse_cons, List.append_assoc]
      rfl

/-- Splitting a space-join of nonempty space-free words recovers the words. -/
theorem pySplit_joinSpace :
    ∀ (ts : List (List Char)),
      (∀ t ∈ ts, t ≠ [] ∧ ∀ c ∈ t, isPySpace c = false) →
      pySplit (joinSpace ts) = ts := by
  intro ts
  induction ts with
  | nil => intro _; rfl
  | cons t rest ih =>
    intro h
    rcases h t (List.mem_cons_self t rest) with ⟨ht, hsf⟩
    cases rest with
    | nil =>
      rw [joinSpace_single]
      unfold pySplit
      rw [show t = t ++ [] from (List.append_nil t).symm, pySplitGo_token t ht hsf]
      rw [List.append_nil, pySplitGo, if_neg (by simpa using ht),
        List.reverse_reverse]
      simp
    | cons t' rest' =>
      rw [joinSpace_cons₂]
      unfold pySplit
      rw [pySplitGo_token t ht hsf, List.append_nil, pySplitGo,
        if_pos (show isPySpace ' ' = true from by decide),
        if_neg (by simpa using ht), List.reverse_reverse]
      exact congrArg (t :: ·)
        (ih fun u hu => h u (List.mem_cons_of_mem t hu))

/-- Abbreviation expansion is idempotent: no expansion except the fixed point
`кент` is itself an abbreviation key. -/
theorem expandWord_idem (w : List Char) :
    expandWord (expandWord w) = expandWord w := by
  cases h : abbreviations.find? (fun kv => decide (kv.1 = w)) with
  | none =>
    have hw : expandWord w = w := by simp [expandWord, h]
    rw [hw, hw]
  | some kv =>
    have hw : expandWord w = kv.2 := by simp [expandWord, h]
    rw [hw]
    have hmem : kv ∈ abbreviations := List.mem_of_find?_eq_some h
    simp only [abbreviations, List.mem_cons, List.not_mem_nil, or_false] at hmem
    rcases hmem with rfl | rfl | rfl | rfl | rfl | rfl | rfl | rfl | rfl |
      rfl | rfl | rfl | rfl | rfl | rfl | rfl <;> decide

/-- Expansion preserves nonemptiness, space-freeness and lowercase-fixedness. -/
theorem expandWord_props (w : List Char) (h1 : w ≠ [])
    (h2 : ∀ c ∈ w, isPySpace c = false) (h3 : ∀ c ∈ w, pyLower c = c) :
    expandWord w ≠ [] ∧ (∀ c ∈ expandWord w, isPySpace c = false) ∧
      ∀ c ∈ expandWord w, pyLower c = c := by
  cases h : abbreviations.find? (fun kv => decide (kv.1 = w)) with
  | none =>
    have hw : expandWord w = w := by simp [expandWord, h]
    rw [hw]
    exact ⟨h1, h2, h3⟩
  | some kv =>
    have hw : expandWord w = kv.2 := by simp [expandWord, h]
    rw [hw]
    have hmem : kv ∈ abbreviations := List.mem_of_find?_eq_some h
    simp only [abbreviations, List.mem_cons, List.not_mem_nil, or_false] at hmem
    rcases hmem with rfl | rfl | rfl | rfl | rfl | rfl | rfl | rfl | rfl |
      rfl | rfl | rfl | rfl | rfl | rfl | rfl <;> exact by decide

/-- Core idempotence on character lists. -/
theorem normalizeChars_idem (l : List Char) :
    normalizeChars (normalizeChars l) = normalizeChars l := by
  have hws : ∀ w ∈ pySplit (pyStrip (lowerL l)),
      w ≠ [] ∧ ∀ c ∈ w, isPySpace c = false ∧ pyLower c = c := by
    intro w hw
    rcases pySplitGo_sound (pyStrip (lowerL l)) [] (by simp) w hw with ⟨h1, h2⟩
    refine ⟨h1, fun c hc => ?_⟩
    rcases h2 c hc with ⟨h3, h4 | h4⟩
    · exact absurd h4 (List.not_mem_nil c)
    · have h5 : c ∈ lowerL l := mem_pyStrip h4
      rcases List.mem_map.mp h5 with ⟨c₀, _, rfl⟩
      exact ⟨h3, pyLower_idem c₀⟩
  have hts : ∀ t ∈ (pySplit (pyStrip (lowerL l))).map expandWord,
      t ≠ [] ∧ (∀ c ∈ t, isPySpace c = false) ∧ ∀ c ∈ t, pyLower c = c := by
    intro t ht
    rcases List.mem_map.mp ht with ⟨w, hw, rfl⟩
    rcases hws w hw with ⟨h1, h2⟩
    exact expandWord_props w h1 (fun c hc => (h2 c hc).1)
      (fun c hc => (h2 c hc).2)
  show normalizeChars
      (joinSpace ((pySplit (pyStrip (lowerL l))).map expandWord)) = _
  unfold normalizeChars
  rw [lowerL_joinSpace _ (fun t ht c hc => ((hts t ht).2.2 c hc)),
    pySplit_pyStrip, pySplit_joinSpace _ (fun t ht => ⟨(hts t ht).1,
      (hts t ht).2.1⟩)]
  rw [List.map_map]
  exact congrArg joinSpace (List.map_congr_left fun w _ => expandWord_idem w)

/-- C4: normalization is idempotent — for every input string `x`,
`normalize(normalize(x)) = normalize(x)`. -/
theorem C4_normalize_idempotent (x : String) :
    normalize_name (normalize_name x) = normalize_name x :=
  congrArg String.mk (normalizeChars_idem x.data)

/-- Unfolding of the traversal loop on a cons cell. -/
theorem walk_cons (flat : List (String × Node))
    (frontier : List (List Char × String)) (name : List Char)
    (rest : List (List Char)) (last : List Char) (matched : Option String) :
    walk flat frontier (name :: rest) last matched =
      match substrFind frontier name with
      | some c => walk flat (childrenOf flat c) rest last (some c)
      | none =>
        match fuzzyFind frontier name with
        | some c => walk flat (childrenOf flat c) rest last (some c)
        | none =>
          if name = last then
            match globalFind flat name with
            | some c => some c
            | none =>
              if strTruthy matched then matched
              else walk flat frontier rest last matched
          else if strTruthy matched then matched
          else walk flat frontier rest last matched := rfl

/-- Unfolding of the name-filtering loop on a cons cell. -/
theorem filterNames_cons (s : String) (rest : List String) :
    filterNames (s :: rest) =
      if rootMarker <:+: normalizeChars s.data then filterNames rest
      else applyAliases (normalizeChars s.data) :: filterNames rest := rfl

/-- All query names contain the root marker, hence filtering drops them all. -/
theorem filterNames_eq_nil {names : List String}
    (h : ∀ n ∈ names, rootMarker <:+: normalizeChars n.data) :
    filterNames names = [] := by
  induction names with
  | nil => rfl
  | cons n rest ih =>
    rw [filterNames_cons, if_pos (h n (List.mem_cons_self n rest))]
    exact ih fun x hx => h x (List.mem_cons_of_mem n hx)

/-- C3 counterexample: `normalize` does not map `'р-на'` or `'р-ну'` to
`'район'`; the abbreviation table keeps the declension endings. -/
theorem C3_counterexample :
    normalize_name "р-на" ≠ "район" ∧ normalize_name "р-ну" ≠ "район" := by
  decide

/-- C3 (amended): `'р-н'` and `'р.'` expand to `'район'`, while `'р-на'`
expands to `'района'` and `'р-ну'` to `'району'` (the declined forms);
`'обл.'` and `'обл'` both expand to `'область'`. -/
theorem C3_amended :
    normalize_name "р-н" = "район" ∧ normalize_name "р." = "район" ∧
    normalize_name "р-на" = "района" ∧ normalize_name "р-ну" = "району" ∧
    normalize_name "обл." = "область" ∧ normalize_name "обл" = "область" := by
  decide

/-- C5: on the hierarchy built from exactly the records
`(R, Казахстан, null, 0)`, `(A, Кызылординская область, R, 1)`,
`(B, Шиелі район, A, 2)` in that order, resolving the full path
`["Казахстан", "Кызылординская область", "Шиелі район"]` returns `B`. -/
theorem C5_exact_path :
    find_kato_code exM ["Казахстан", "Кызылординская область", "Шиелі район"] =
      some "B" := by
  decide

/-- C7: the empty query resolves to `None`, and a query all of whose entries
normalize to strings containing the root marker `'республика казахстан'`
resolves to `None`; in both cases the result is `None` for *every* matcher
state, i.e. the hierarchy is never consulted. -/
theorem C7_empty_and_root_only (m : KatoMatcher) (names : List String)
    (h : names = [] ∨ ∀ n ∈ names, rootMarker <:+: normalizeChars n.data) :
    find_kato_code m names = none := by
  rcases h with h | h
  · subst h; rfl
  · cases names with
    | nil => rfl
    | cons n rest =>
      have hf : filterNames (n :: rest) = [] := filterNames_eq_nil h
      simp only [find_kato_code, hf]

/-- Closed instance of `C7_empty_and_root_only` at the empty query and at a
root-marker-only query. -/
theorem C7_witness :
    find_kato_code exM [] = none ∧
    find_kato_code exM ["Республика Казахстан"] = none :=
  ⟨C7_empty_and_root_only exM [] (Or.inl rfl),
   C7_empty_and_root_only exM ["Республика Казахстан"] (Or.inr (by decide))⟩

/-- C2 counterexample: on `dupM` and `dupQuery`, the middle name `qqq` is not
in last position, yet (being string-equal to the last name) it triggers the
global fallback and resolution returns `Z`; under the claim's positional
reading (`walkByPosition`) resolution would instead return the earlier best
match `R`.  The scan is therefore not performed "if and only if the name is
the last element by position". -/
theorem C2_counterexample :
    find_kato_code dupM dupQuery = some "Z" ∧
    find_kato_code_by_position dupM dupQuery = some "R" ∧
    some "Z" ≠ (some "R" : Option String) := by
  decide

/-- C2 (amended): when no frontier node matches the current filtered name,
the global scan over the flat index is performed if and only if the name is
*string-equal* to the last element of the filtered sequence (not merely in
last position); a successful scan returns that code immediately, and a
failing name that differs from the last element triggers no scan. -/
theorem C2_amended :
    (∀ flat frontier name rest last matched c,
        substrFind frontier name = none → fuzzyFind frontier name = none →
        name = last → globalFind flat name = some c →
        walk flat frontier (name :: rest) last matched = some c) ∧
    (∀ flat frontier name rest last matched,
        substrFind frontier name = none → fuzzyFind frontier name = none →
        name ≠ last →
        walk flat frontier (name :: rest) last matched =
          if strTruthy matched then matched
          else walk flat frontier rest last matched) := by
  constructor
  · intro flat frontier name rest last matched c h1 h2 h3 h4
    subst h3
    simp [walk, h1, h2, h4]
  · intro flat frontier name rest last matched h1 h2 h3
    simp [walk, h1, h2, h3]

/-- Closed instance of `C2_amended`: the scan fires for a name string-equal
to the last element (returning the scanned code), and is skipped for a name
that differs from the last element (returning the recorded best match). -/
theorem C2_witness :
    walk dupM.kato_by_code [] ["qqq".data] "qqq".data none = some "Z" ∧
    walk dupM.kato_by_code [] ["zz".data] "qq".data (some "R") = some "R" := by
  constructor
  · exact C2_amended.1 dupM.kato_by_code [] "qqq".data [] "qqq".data none "Z"
      (by decide) (by decide) rfl (by decide)
  · rw [C2_amended.2 dupM.kato_by_code [] "zz".data [] "qq".data (some "R")
      (by decide) (by decide) (by decide)]
    decide

/-- C6 counterexample: in a real resolution on `dupM`, at the non-last
middle name `qqq` no frontier node matches (neither by substring nor by
token overlap) and the best match `R` is already recorded, yet resolution
does not stop with `R`: the global fallback fires (the name equals the last
one as a string) and the final result is `Z`. -/
theorem C6_counterexample :
    substrFind (childrenOf dupM.kato_by_code "R") "qqq".data = none ∧
    fuzzyFind (childrenOf dupM.kato_by_code "R") "qqq".data = none ∧
    walk dupM.kato_by_code (childrenOf dupM.kato_by_code "R")
      ["qqq".data, "qqq".data] "qqq".data (some "R") = some "Z" ∧
    find_kato_code dupM dupQuery = some "Z" ∧
    some "Z" ≠ (some "R" : Option String) := by
  decide

/-- C6 (amended): partial-path success — on the three-record hierarchy the
query `["Казахстан", "Кызылординская область"]` returns `A`; and whenever a
filtered name matches no frontier node, a truthy best match was already
recorded, and the global fallback does not preempt (the name differs from
the last filtered name as a string, or the global scan finds nothing),
the traversal stops and returns the best match unchanged. -/
theorem C6_amended :
    find_kato_code exM ["Казахстан", "Кызылординская область"] = some "A" ∧
    ∀ flat frontier name rest last matched,
      substrFind frontier name = none → fuzzyFind frontier name = none →
      (name ≠ last ∨ globalFind flat name = none) →
      strTruthy matched = true →
      walk flat frontier (name :: rest) last matched = matched := by
  constructor
  · decide
  · intro flat frontier name rest last matched h1 h2 h3 h4
    rcases h3 with h3 | h3
    · simp [walk, h1, h2, h3, h4]
    · by_cases h5 : name = last
      · subst h5
        simp [walk, h1, h2, h3, h4]
      · simp [walk, h1, h2, h4, h5]

/-- C1 counterexample: the record `X` has a non-empty `parent_code` absent
from the flat index, yet after construction the root mapping contains only
`R` — `X` is *not* inserted at root level (its normalized name `орфан` is
not a root key), even though `X` is present in the flat index. -/
theorem C1_counterexample :
    (load_kato_data c1Records).kato_tree = [("казахстан".data, "R")] ∧
    lookupD (load_kato_data c1Records).kato_tree
      (normalizeChars "Орфан".data) = none ∧
    lookupD (load_kato_data c1Records).kato_by_code "X" ≠ none := by
  decide

/-- C1 (amended): during construction, a record whose `parent_code` is falsy
(null or empty) is inserted into the root mapping under its normalized name;
but a record whose non-empty `parent_code` does not resolve in the flat index
is inserted neither into the root mapping nor into any children mapping —
it remains only in the flat index, unreachable from the tree. -/
theorem C1_amended (records : List KatoRecord) (k : String) (v : Node) :
    ((k, v) ∈ buildFlat records → strTruthy v.parent_code = false →
      v.normalized_name ∈ (load_kato_data records).kato_tree.map Prod.fst) ∧
    (∀ pc, (k, v) ∈ buildFlat records → v.parent_code = some pc → pc ≠ "" →
      lookupD (buildFlat records) pc = none →
      (∀ e ∈ (load_kato_data records).kato_tree, e.2 ≠ k) ∧
      ∀ p e, e ∈ childrenOf (buildFlat records) p → e.2 ≠ k) := by
  constructor
  · intro hmem hfalsy
    show v.normalized_name ∈ (rootsOf (buildFlat records)).map Prod.fst
    rw [rootsOf_eq_guarded]
    exact foldl_dinsert_key_mem _ _ _ (buildFlat records) [] (k, v) hmem
      (by simp [hfalsy])
  · intro pc hmem hpc hpcne hlook
    have htruthy : strTruthy v.parent_code = true := by
      rw [hpc]; simpa [strTruthy] using hpcne
    have hkey : ∀ kv : String × Node, kv ∈ buildFlat records →
        kv.2.code = k → kv.2 = v := by
      intro kv hkv hcode
      have h1 : kv.2.code = kv.1 := buildFlat_code_eq_key hkv
      have h2 : kv.1 = k := h1 ▸ hcode
      have h3 : (k, kv.2) ∈ buildFlat records := by
        rw [← h2]; exact hkv
      exact value_unique (buildFlat_keys_nodup records) h3 hmem
    constructor
    · intro e he hek
      rcases mem_rootsOf he with ⟨kv, hkv, hfalsy, _, hcode⟩
      rw [hkey kv hkv (hcode ▸ hek)] at hfalsy
      rw [htruthy] at hfalsy
      exact Bool.true_eq_false.mp hfalsy
    · intro p e he hek
      rcases mem_childrenOf he with ⟨kv, hkv, hchild, _, hcode⟩
      rw [hkey kv hkv (hcode ▸ hek)] at hchild
      rw [isChildOf, hpc] at hchild
      simp only [Bool.and_eq_true] at hchild
      rw [hlook] at hchild
      simpa using hchild.1.2

/-- Closed instance of `C1_amended` on `c1Records`: the root `R` lands in the
tree, and the orphan `X` appears neither as a tree value nor as a child of
`R`. -/
theorem C1_witness :
    (mkNode (⟨"R", "Казахстан", none, 0⟩ : KatoRecord)).normalized_name ∈
      (load_kato_data c1Records).kato_tree.map Prod.fst ∧
    (∀ e ∈ (load_kato_data c1Records).kato_tree, e.2 ≠ "X") ∧
    (∀ e, e ∈ childrenOf (buildFlat c1Records) "R" → e.2 ≠ "X") := by
  refine ⟨(C1_amended c1Records "R" (mkNode ⟨"R", "Казахстан", none, 0⟩)).1
    (by decide) (by decide), ?_, ?_⟩
  · exact ((C1_amended c1Records "X" (mkNode ⟨"X", "Орфан", some "MISSING", 1⟩)).2
      "MISSING" (by decide) rfl (by decide) (by decide)).1
  · exact (((C1_amended c1Records "X" (mkNode ⟨"X", "Орфан", some "MISSING", 1⟩)).2
      "MISSING" (by decide) rfl (by decide) (by decide)).2) "R"

/-- Closed instance of `C6_amended`: concrete partial path, plus a stop at a
failing level with a recorded best match when the scan cannot preempt. -/
theorem C6_witness :
    find_kato_code exM ["Казахстан", "Кызылординская область"] = some "A" ∧
    walk exM.kato_by_code [] ["нигде".data, "тоже".data] "тоже".data
      (some "A") = some "A" :=
  ⟨C6_amended.1,
   C6_amended.2 exM.kato_by_code [] "нигде".data ["тоже".data] "тоже".data
     (some "A") (by decide) (by decide) (Or.inl (by decide)) (by decide)⟩

/-- A parent-scoped hit is a child entry of that parent with a substring
overlap. -/
theorem find_by_parent_mem {m : KatoMatcher} {p n : String} {c : String}
    (h : find_by_parent m p n = some c) :
    ∃ e ∈ childrenOf m.kato_by_code p,
      substrB (normalizeChars n.data) e.1 = true ∧ e.2 = c := by
  unfold find_by_parent at h
  cases hl : lookupD m.kato_by_code p with
  | none => rw [hl] at h; exact absurd h (by simp)
  | some nd =>
    rw [hl] at h
    rcases Option.map_eq_some'.mp h with ⟨e, he, hec⟩
    exact ⟨e, List.mem_of_find?_eq_some he,
      by simpa using List.find?_some he, hec⟩

/-- The first list element satisfying the predicate is found, whatever
follows it. -/
theorem find?_first {α : Type} (q : α → Bool) :
    ∀ (l₁ : List α) (e : α) (l₂ : List α), q e = true →
      (∀ x ∈ l₁, q x = false) →
      List.find? q (l₁ ++ e :: l₂) = some e := by
  intro l₁
  induction l₁ with
  | nil =>
    intro e l₂ he _
    rw [List.nil_append]
    exact List.find?_cons_of_pos l₂ he
  | cons a l₁' ih =>
    intro e l₂ he hall
    rw [List.cons_append,
      List.find?_cons_of_neg _ (by simp [hall a (List.mem_cons_self a l₁')])]
    exact ih e l₂ he (fun x hx => hall x (List.mem_cons_of_mem a hx))

/-- C9: `find_by_parent` returns `None` whenever the parent code is absent
from the flat index; otherwise it scans only that parent's direct children
and returns the code of the first child whose normalized name has a
substring overlap (either direction) with the normalized query name
(fourth conjunct: if the children list splits as `l₁ ++ e :: l₂` with `e`
overlapping and nothing in `l₁` overlapping, the result is `e`'s code), and
`None` when no child overlaps — regardless of any token-overlap or global
match that a full resolution would have found. -/
theorem C9_find_by_parent (m : KatoMatcher) (p n : String) :
    (lookupD m.kato_by_code p = none → find_by_parent m p n = none) ∧
    (∀ c, find_by_parent m p n = some c →
      ∃ e ∈ childrenOf m.kato_by_code p,
        substrB (normalizeChars n.data) e.1 = true ∧ e.2 = c) ∧
    ((∀ e ∈ childrenOf m.kato_by_code p,
        substrB (normalizeChars n.data) e.1 = false) →
      find_by_parent m p n = none) ∧
    (∀ (l₁ : List (List Char × String)) (e : List Char × String)
        (l₂ : List (List Char × String)),
      (lookupD m.kato_by_code p).isSome = true →
      childrenOf m.kato_by_code p = l₁ ++ e :: l₂ →
      substrB (normalizeChars n.data) e.1 = true →
      (∀ e' ∈ l₁, substrB (normalizeChars n.data) e'.1 = false) →
      find_by_parent m p n = some e.2) := by
  refine ⟨?_, ?_, ?_, ?_⟩
  · intro h
    simp [find_by_parent, h]
  · intro c h
    exact find_by_parent_mem h
  · intro hall
    unfold find_by_parent
    cases hl : lookupD m.kato_by_code p with
    | none => rfl
    | some nd =>
      rw [List.find?_eq_none.mpr]
      · rfl
      · intro e he
        simp [hall e he]
  · intro l₁ e l₂ hsome hsplit he hl₁
    unfold find_by_parent
    cases hl : lookupD m.kato_by_code p with
    | none => rw [hl] at hsome; exact absurd hsome (by simp)
    | some nd =>
      rw [hsplit, find?_first _ l₁ e l₂ he hl₁]
      rfl

/-- Closed instance of `C9_find_by_parent`: unknown parent gives `None`, a
hit under parent `A` is certified to come from `A`'s children list, and the
first (here: only) overlapping child of `A` is returned positively. -/
theorem C9_witness :
    find_by_parent exM "NOPE" "Шиелі район" = none ∧
    (∃ e ∈ childrenOf exM.kato_by_code "A",
      substrB (normalizeChars "Шиелі р-н".data) e.1 = true ∧ e.2 = "B") ∧
    find_by_parent exM "A" "Шиелі р-н" = some "B" :=
  ⟨(C9_find_by_parent exM "NOPE" "Шиелі район").1 (by decide),
   (C9_find_by_parent exM "A" "Шиелі р-н").2.1 "B" (by decide),
   (C9_find_by_parent exM "A" "Шиелі р-н").2.2.2 []
     ("шиелі район".data, "B") [] (by decide) (by decide) (by decide)
     (by decide)⟩

/-- Every code produced anywhere during a walk is the `code` field of a node
stored in the flat index. -/
theorem walk_code_from_flat (flat : List (String × Node)) :
    ∀ (names : List (List Char)) (frontier : List (List Char × String))
      (last : List Char) (matched : Option String) (c : String),
      (∀ e ∈ frontier, ∃ kv ∈ flat, kv.2.code = e.2) →
      (∀ mc, matched = some mc → ∃ kv ∈ flat, kv.2.code = mc) →
      walk flat frontier names last matched = some c →
      ∃ kv ∈ flat, kv.2.code = c := by
  intro names
  induction names with
  | nil => intro frontier last matched c _ hm h; exact hm c h
  | cons name rest ih =>
    intro frontier last matched c hf hm h
    rw [walk_cons] at h
    have hchild : ∀ c', ∀ e ∈ childrenOf flat c', ∃ kv ∈ flat, kv.2.code = e.2 := by
      intro c' e he
      rcases mem_childrenOf he with ⟨kv, hkv, _, _, hcode⟩
      exact ⟨kv, hkv, hcode.symm⟩
    cases h1 : substrFind frontier name with
    | some c' =>
      rw [h1] at h
      have hc' : ∃ kv ∈ flat, kv.2.code = c' := by
        rcases Option.map_eq_some'.mp h1 with ⟨e, he, hec⟩
        rcases hf e (List.mem_of_find?_eq_some he) with ⟨kv, hkv, hcode⟩
        exact ⟨kv, hkv, hec ▸ hcode⟩
      exact ih _ last (some c') c (hchild c')
        (fun mc hmc => (Option.some_inj.mp hmc) ▸ hc') h
    | none =>
      rw [h1] at h
      cases h2 : fuzzyFind frontier name with
      | some c' =>
        rw [h2] at h
        have hc' : ∃ kv ∈ flat, kv.2.code = c' := by
          rcases Option.map_eq_some'.mp h2 with ⟨e, he, hec⟩
          rcases hf e (List.mem_of_find?_eq_some he) with ⟨kv, hkv, hcode⟩
          exact ⟨kv, hkv, hec ▸ hcode⟩
        exact ih _ last (some c') c (hchild c')
          (fun mc hmc => (Option.some_inj.mp hmc) ▸ hc') h
      | none =>
        rw [h2] at h
        have hcont : (if strTruthy matched then matched
            else walk flat frontier rest last matched) = some c →
            ∃ kv ∈ flat, kv.2.code = c := by
          intro hcase
          by_cases hm' : strTruthy matched
          · rw [if_pos hm'] at hcase
            exact hm c hcase
          · rw [if_neg hm'] at hcase
            exact ih frontier last matched c hf hm hcase
        by_cases h3 : name = last
        · rw [if_pos h3] at h
          cases h4 : globalFind flat name with
          | some c'' =>
            rw [h4] at h
            rcases Option.map_eq_some'.mp h4 with ⟨kv, hkv, hcode⟩
            exact ⟨kv, List.mem_of_find?_eq_some hkv,
              hcode.trans (Option.some_inj.mp h)⟩
          | none =>
            rw [h4] at h
            exact hcont h
        · rw [if_neg h3] at h
          exact hcont h

/-- Flat-index codes come from the input record list. -/
theorem code_from_records {records : List KatoRecord} {c : String}
    (h : ∃ kv ∈ buildFlat records, kv.2.code = c) :
    ∃ r ∈ records, r.code = c := by
  rcases h with ⟨kv, hkv, hcode⟩
  rcases mem_buildFlat hkv with ⟨r, hr, _, h2⟩
  exact ⟨r, hr, by rw [← hcode, h2]; rfl⟩

/-- C10: every non-`None` result of `resolve` and of `findByParent` is the
`code` field of one of the input reference records — the matcher never
fabricates a code absent from the reference table. -/
theorem C10_codes (records : List KatoRecord) (c : String) :
    (∀ names, find_kato_code (load_kato_data records) names = some c →
      ∃ r ∈ records, r.code = c) ∧
    (∀ p n, find_by_parent (load_kato_data records) p n = some c →
      ∃ r ∈ records, r.code = c) := by
  constructor
  · intro names h
    cases names with
    | nil => exact absurd h (by simp [find_kato_code])
    | cons n ns =>
      cases hf : filterNames (n :: ns) with
      | nil =>
        rw [show find_kato_code (load_kato_data records) (n :: ns) = none by
          simp only [find_kato_code, hf]] at h
        exact absurd h (by simp)
      | cons f fs =>
        apply code_from_records
        refine walk_code_from_flat (buildFlat records) (f :: fs)
          (rootsOf (buildFlat records))
          ((f :: fs).getLast (List.cons_ne_nil f fs)) none c ?_ (by simp) ?_
        · intro e he
          rcases mem_rootsOf he with ⟨kv, hkv, _, _, hcode⟩
          exact ⟨kv, hkv, hcode.symm⟩
        · rw [show find_kato_code (load_kato_data records) (n :: ns) =
            walk (buildFlat records) (rootsOf (buildFlat records)) (f :: fs)
              ((f :: fs).getLast (List.cons_ne_nil f fs)) none by
            simp only [find_kato_code, hf]; rfl] at h
          exact h
  · intro p n h
    apply code_from_records
    rcases find_by_parent_mem h with ⟨e, he, _, hec⟩
    rcases mem_childrenOf he with ⟨kv, hkv, _, _, hcode⟩
    exact ⟨kv, hkv, by rw [← hcode]; exact hec⟩

/-! Replacement lemmas (for the alias-substitution claim). -/

/-- Unfolding of the replacement worker on a cons cell with fuel. -/
theorem replaceGo_succ_cons (old new : List Char) (fuel : Nat) (c : Char)
    (cs : List Char) :
    replaceGo old new (fuel + 1) (c :: cs) =
      if old ≠ [] ∧ old <+: (c :: cs) then
        new ++ replaceGo old new fuel (List.drop old.length (c :: cs))
      else c :: replaceGo old new fuel cs := rfl

/-- Any sufficient fuel computes the same replacement. -/
theorem replaceGo_fuel (old new : List Char) :
    ∀ (fuel : Nat) (l : List Char), l.length ≤ fuel →
      replaceGo old new fuel l = replaceGo old new l.length l := by
  intro fuel
  induction fuel using Nat.strong_induction_on with
  | _ fuel ih =>
    cases fuel with
    | zero =>
      intro l hl
      rw [List.eq_nil_of_length_eq_zero (Nat.le_zero.mp hl)]
      rfl
    | succ f =>
      intro l hl
      cases l with
      | nil => rfl
      | cons c cs =>
        rw [List.length_cons] at hl
        rw [List.length_cons, replaceGo_succ_cons, replaceGo_succ_cons]
        by_cases hcond : old ≠ [] ∧ old <+: (c :: cs)
        · rw [if_pos hcond, if_pos hcond]
          have hold1 : 1 ≤ old.length := List.length_pos.mpr hcond.1
          have hlen1 : (List.drop old.length (c :: cs)).length ≤ f := by
            rw [List.length_drop, List.length_cons]
            omega
          have hlen2 : (List.drop old.length (c :: cs)).length ≤ cs.length := by
            rw [List.length_drop, List.length_cons]
            omega
          rw [ih f (Nat.lt_succ_self f) _ hlen1,
            ih cs.length (by omega) _ hlen2]
        · rw [if_neg hcond, if_neg hcond]
          rw [ih f (Nat.lt_succ_self f) cs (by omega)]

/-- Single-step unfolding of `pyReplace` for non-empty `old`. -/
theorem pyReplace_cons (old new : List Char) (hold : old ≠ []) (c : Char)
    (cs : List Char) :
    pyReplace (c :: cs) old new =
      if old <+: (c :: cs) then
        new ++ pyReplace (List.drop old.length (c :: cs)) old new
      else c :: pyReplace cs old new := by
  show replaceGo old new (c :: cs).length (c :: cs) = _
  rw [List.length_cons, replaceGo_succ_cons]
  by_cases hpre : old <+: (c :: cs)
  · rw [if_pos ⟨hold, hpre⟩, if_pos hpre]
    have hlen : (List.drop old.length (c :: cs)).length ≤ cs.length := by
      rw [List.length_drop, List.length_cons]
      have : 1 ≤ old.length := List.length_pos.mpr hold
      omega
    rw [replaceGo_fuel old new cs.length _ hlen]
    rfl
  · rw [if_neg (fun hc => hpre hc.2), if_neg hpre]
    rfl

/-- Replacing a pattern that does not occur leaves the list unchanged. -/
theorem pyReplace_of_absent {old l : List Char} (new : List Char)
    (h : ¬ old <:+: l) : pyReplace l old new = l := by
  induction l with
  | nil => rfl
  | cons c cs ih =>
    have hold : old ≠ [] := fun he => h (he ▸ List.nil_infix)
    rw [pyReplace_cons old new hold]
    rw [if_neg (fun hp => h hp.isInfix)]
    rw [ih (fun hi => h ((List.infix_cons_iff).mpr (Or.inr hi)))]

/-- An infix of an append is an infix of the right part or a prefix starting
inside the left part. -/
theorem infix_append_cases {x v : List Char} :
    ∀ {u : List Char}, x <:+: u ++ v →
      x <:+: v ∨ ∃ j, j < u.length ∧ x <+: u.drop j ++ v := by
  intro u
  induction u with
  | nil => intro h; exact Or.inl h
  | cons a u' ih =>
    intro h
    rcases List.infix_cons_iff.mp h with h | h
    · exact Or.inr ⟨0, by simp, by simpa using h⟩
    · rcases ih h with h | ⟨j, hj, hx⟩
      · exact Or.inl h
      · exact Or.inr ⟨j + 1, by simpa using Nat.succ_lt_succ hj, by simpa using hx⟩

/-- Tail-prefix transfer: if a proper tail of the pattern `q` is a prefix of
a replacement output, it was already a prefix of the input (the inserted
`cc` blocks cannot carry it, by the mismatch hypothesis). -/
theorem replaceGo_tail_transfer (p cc q : List Char)
    (Hmis : ∀ (k : Nat) (R : List Char), 1 ≤ k → k < q.length →
      ¬ q.drop k <+: cc ++ R) :
    ∀ (fuel : Nat) (l : List Char), l.length ≤ fuel →
      ∀ k, 1 ≤ k → k < q.length →
        q.drop k <+: replaceGo p cc fuel l → q.drop k <+: l := by
  intro fuel
  induction fuel with
  | zero =>
    intro l hl k hk1 hk2 hpre
    rw [List.eq_nil_of_length_eq_zero (Nat.le_zero.mp hl)] at hpre ⊢
    exact hpre
  | succ fuel ih =>
    intro l hl k hk1 hk2 hpre
    cases l with
    | nil =>
      have : q.drop k = [] := List.prefix_nil.mp hpre
      have : q.length ≤ k := by
        have := congrArg List.length this
        rw [List.length_drop] at this
        simpa using Nat.le_of_sub_eq_zero this
      omega
    | cons c cs =>
      rw [replaceGo_succ_cons] at hpre
      by_cases hcond : p ≠ [] ∧ p <+: (c :: cs)
      · rw [if_pos hcond] at hpre
        exact absurd hpre (Hmis k _ hk1 hk2)
      · rw [if_neg hcond] at hpre
        rw [List.drop_eq_getElem_cons hk2] at hpre ⊢
        rcases List.cons_prefix_cons.mp hpre with ⟨hqc, htail⟩
        refine List.cons_prefix_cons.mpr ⟨hqc, ?_⟩
        by_cases hk3 : k + 1 < q.length
        · have hcs : cs.length ≤ fuel := by
            rw [List.length_cons] at hl; omega
          exact ih cs hcs (k + 1) (by omega) hk3 htail
        · have : q.drop (k + 1) = [] := by
            rw [List.drop_eq_nil_iff]
            omega
          rw [this]
          exact List.nil_prefix

/-- The pattern `p` never occurs in the output of replacing `p` by `cc`,
provided no tail of `p` can sit at an inserted block (`Hmis`) and no
occurrence can start inside an inserted block (`Hpc`). -/
theorem replaceGo_no_self (p cc : List Char) (hp : p ≠ [])
    (Hmis : ∀ (k : Nat) (R : List Char), 1 ≤ k → k < p.length →
      ¬ p.drop k <+: cc ++ R)
    (Hpc : ∀ (j : Nat) (R : List Char), j < cc.length →
      ¬ p <+: cc.drop j ++ R) :
    ∀ (fuel : Nat) (l : List Char), l.length ≤ fuel →
      ¬ p <:+: replaceGo p cc fuel l := by
  intro fuel
  induction fuel with
  | zero =>
    intro l hl hinf
    rw [List.eq_nil_of_length_eq_zero (Nat.le_zero.mp hl)] at hinf
    exact hp (List.infix_nil.mp hinf)
  | succ fuel ih =>
    intro l hl hinf
    cases l with
    | nil => exact hp (List.infix_nil.mp hinf)
    | cons c cs =>
      rw [replaceGo_succ_cons] at hinf
      by_cases hcond : p ≠ [] ∧ p <+: (c :: cs)
      · rw [if_pos hcond] at hinf
        rcases infix_append_cases hinf with h | ⟨j, hj, hx⟩
        · have hlen : (List.drop p.length (c :: cs)).length ≤ fuel := by
            rw [List.length_drop, List.length_cons]
            have : 1 ≤ p.length := List.length_pos.mpr hp
            rw [List.length_cons] at hl
            omega
          exact ih _ hlen h
        · exact Hpc j _ hj hx
      · rw [if_neg hcond] at hinf
        have hnp : ¬ p <+: (c :: cs) := fun hpre => hcond ⟨hp, hpre⟩
        have hcs : cs.length ≤ fuel := by
          rw [List.length_cons] at hl; omega
        rcases List.infix_cons_iff.mp hinf with h | h
        · cases hq : p with
          | nil => exact hp hq
          | cons p₀ p' =>
            rw [hq] at h
            rcases List.cons_prefix_cons.mp h with ⟨hpc, htail⟩
            cases hp' : p' with
            | nil =>
              apply hnp
              rw [hq, hp', hpc]
              exact List.cons_prefix_cons.mpr ⟨rfl, List.nil_prefix⟩
            | cons d p'' =>
              have hk2 : 1 < p.length := by
                rw [hq, hp']; simp
              have htail' : p.drop 1 <+: replaceGo p cc fuel cs := by
                rw [hq]; simpa using htail
              have := replaceGo_tail_transfer p cc p Hmis fuel cs hcs 1
                le_rfl hk2 htail'
              apply hnp
              rw [hq]
              refine List.cons_prefix_cons.mpr ⟨hpc, ?_⟩
              rw [hq] at this
              simpa using this
        · exact ih cs hcs h

/-- Replacing `p` by `cc` cannot create an occurrence of a different pattern
`q` that was absent from the input. -/
theorem replaceGo_no_other (p cc q : List Char) (hq : q ≠ [])
    (Hmis : ∀ (k : Nat) (R : List Char), 1 ≤ k → k < q.length →
      ¬ q.drop k <+: cc ++ R)
    (Hqc : ∀ (j : Nat) (R : List Char), j < cc.length →
      ¬ q <+: cc.drop j ++ R) :
    ∀ (fuel : Nat) (l : List Char), l.length ≤ fuel →
      ¬ q <:+: l → ¬ q <:+: replaceGo p cc fuel l := by
  intro fuel
  induction fuel with
  | zero =>
    intro l hl hnotin hinf
    rw [List.eq_nil_of_length_eq_zero (Nat.le_zero.mp hl)] at hinf
    exact hq (List.infix_nil.mp hinf)
  | succ fuel ih =>
    intro l hl hnotin hinf
    cases l with
    | nil => exact hq (List.infix_nil.mp hinf)
    | cons c cs =>
      rw [replaceGo_succ_cons] at hinf
      have hcs : cs.length ≤ fuel := by
        rw [List.length_cons] at hl; omega
      have hnotcs : ¬ q <:+: cs :=
        fun hi => hnotin (List.infix_cons_iff.mpr (Or.inr hi))
      by_cases hcond : p ≠ [] ∧ p <+: (c :: cs)
      · rw [if_pos hcond] at hinf
        rcases infix_append_cases hinf with h | ⟨j, hj, hx⟩
        · have hlen : (List.drop p.length (c :: cs)).length ≤ fuel := by
            rw [List.length_drop, List.length_cons]
            have : 1 ≤ p.length := List.length_pos.mpr hcond.1
            rw [List.length_cons] at hl
            omega
          have hnotdrop : ¬ q <:+: List.drop p.length (c :: cs) :=
            fun hi => hnotin (hi.trans (List.drop_suffix _ _).isInfix)
          exact ih _ hlen hnotdrop h
        · exact Hqc j _ hj hx
      · rw [if_neg hcond] at hinf
        rcases List.infix_cons_iff.mp hinf with h | h
        · cases hqe : q with
          | nil => exact hq hqe
          | cons q₀ q' =>
            rw [hqe] at h
            rcases List.cons_prefix_cons.mp h with ⟨hqc, htail⟩
            cases hq' : q' with
            | nil =>
              apply hnotin
              apply List.IsPrefix.isInfix
              rw [hqe, hq', hqc]
              exact List.cons_prefix_cons.mpr ⟨rfl, List.nil_prefix⟩
            | cons d q'' =>
              have hk2 : 1 < q.length := by
                rw [hqe, hq']; simp
              have htail' : q.drop 1 <+: replaceGo p cc fuel cs := by
                rw [hqe]; simpa using htail
              have := replaceGo_tail_transfer p cc q Hmis fuel cs hcs 1
                le_rfl hk2 htail'
              apply hnotin
              apply List.IsPrefix.isInfix
              rw [hqe]
              refine List.cons_prefix_cons.mpr ⟨hqc, ?_⟩
              rw [hqe] at this
              simpa using this
        · exact ih cs hcs hnotcs h

/-- No proper tail of `нур-султан` fits at the start of an inserted
`астана` block. -/
theorem a1_mis : ∀ (k : Nat) (R : List Char), 1 ≤ k →
    k < ("нур-султан".data).length →
    ¬ ("нур-султан".data).drop k <+: "астана".data ++ R := by
  have hlen : ("нур-султан".data).length = 10 := rfl
  intro k R hk1 hk2
  rw [hlen] at hk2
  interval_cases k <;>
    (intro hc; rw [show ("нур-султан".data) = ['н', 'у', 'р', '-', 'с', 'у',
      'л', 'т', 'а', 'н'] from rfl,
      show ("астана".data) = ['а', 'с', 'т', 'а', 'н', 'а'] from rfl] at hc;
      simp [List.cons_prefix_cons] at hc)

/-- No occurrence of `нур-султан` can start inside an inserted `астана`
block. -/
theorem a1_pc : ∀ (j : Nat) (R : List Char), j < ("астана".data).length →
    ¬ "нур-султан".data <+: ("астана".data).drop j ++ R := by
  have hlen : ("астана".data).length = 6 := rfl
  intro j R hj
  rw [hlen] at hj
  interval_cases j <;>
    (intro hc; rw [show ("нур-султан".data) = ['н', 'у', 'р', '-', 'с', 'у',
      'л', 'т', 'а', 'н'] from rfl,
      show ("астана".data) = ['а', 'с', 'т', 'а', 'н', 'а'] from rfl] at hc;
      simp [List.cons_prefix_cons] at hc)

/-- No proper tail of `нұр-сұлтан` fits at the start of an inserted
`астана` block. -/
theorem a2_mis : ∀ (k : Nat) (R : List Char), 1 ≤ k →
    k < ("нұр-сұлтан".data).length →
    ¬ ("нұр-сұлтан".data).drop k <+: "астана".data ++ R := by
  have hlen : ("нұр-сұлтан".data).length = 10 := rfl
  intro k R hk1 hk2
  rw [hlen] at hk2
  interval_cases k <;>
    (intro hc; rw [show ("нұр-сұлтан".data) = ['н', 'ұ', 'р', '-', 'с', 'ұ',
      'л', 'т', 'а', 'н'] from rfl,
      show ("астана".data) = ['а', 'с', 'т', 'а', 'н', 'а'] from rfl] at hc;
      simp [List.cons_prefix_cons] at hc)

/-- No occurrence of `нұр-сұлтан` can start inside an inserted `астана`
block. -/
theorem a2_pc : ∀ (j : Nat) (R : List Char), j < ("астана".data).length →
    ¬ "нұр-сұлтан".data <+: ("астана".data).drop j ++ R := by
  have hlen : ("астана".data).length = 6 := rfl
  intro j R hj
  rw [hlen] at hj
  interval_cases j <;>
    (intro hc; rw [show ("нұр-сұлтан".data) = ['н', 'ұ', 'р', '-', 'с', 'ұ',
      'л', 'т', 'а', 'н'] from rfl,
      show ("астана".data) = ['а', 'с', 'т', 'а', 'н', 'а'] from rfl] at hc;
      simp [List.cons_prefix_cons] at hc)

/-- After replacing every `нур-султан` by `астана`, no `нур-султан` remains. -/
theorem pyReplace_a1_no_self (l : List Char) :
    ¬ "нур-султан".data <:+: pyReplace l "нур-султан".data "астана".data :=
  replaceGo_no_self _ _ (by decide) a1_mis a1_pc l.length l le_rfl

/-- After replacing every `нұр-сұлтан` by `астана`, no `нұр-сұлтан` remains. -/
theorem pyReplace_a2_no_self (l : List Char) :
    ¬ "нұр-сұлтан".data <:+: pyReplace l "нұр-сұлтан".data "астана".data :=
  replaceGo_no_self _ _ (by decide) a2_mis a2_pc l.length l le_rfl

/-- Replacing `нұр-сұлтан` by `астана` cannot create a `нур-султан`. -/
theorem pyReplace_a2_keeps_a1_free {l : List Char}
    (h : ¬ "нур-султан".data <:+: l) :
    ¬ "нур-султан".data <:+:
      pyReplace l "нұр-сұлтан".data "астана".data :=
  replaceGo_no_other _ _ _ (by decide) a1_mis a1_pc l.length l le_rfl h

/-- Replacing all `нур-султан` twice is the same as once. -/
theorem pyReplace_a1_idem (l : List Char) :
    pyReplace (pyReplace l "нур-султан".data "астана".data)
        "нур-султан".data "астана".data =
      pyReplace l "нур-султан".data "астана".data :=
  pyReplace_of_absent _ (pyReplace_a1_no_self l)

/-- Replacing all `нұр-сұлтан` twice is the same as once. -/
theorem pyReplace_a2_idem (l : List Char) :
    pyReplace (pyReplace l "нұр-сұлтан".data "астана".data)
        "нұр-сұлтан".data "астана".data =
      pyReplace l "нұр-сұлтан".data "астана".data :=
  pyReplace_of_absent _ (pyReplace_a2_no_self l)

/-- The conditional alias loop equals the unconditional double replacement. -/
theorem applyAliases_eq (n : List Char) :
    applyAliases n =
      pyReplace (pyReplace n "нур-султан".data "астана".data)
        "нұр-сұлтан".data "астана".data := by
  unfold applyAliases name_aliases
  rw [List.foldl_cons, List.foldl_cons, List.foldl_nil]
  by_cases h1 : "нур-султан".data <:+: n
  · rw [if_pos h1]
    by_cases h2 : "нұр-сұлтан".data <:+:
        pyReplace n "нур-султан".data "астана".data
    · rw [if_pos h2]
    · rw [if_neg h2, pyReplace_of_absent _ h2]
  · rw [if_neg h1, pyReplace_of_absent _ h1]
    by_cases h2 : "нұр-сұлтан".data <:+: n
    · rw [if_pos h2]
    · rw [if_neg h2, pyReplace_of_absent _ h2]

/-- Filtering is unchanged when one entry is replaced by another with the
same root-marker status and the same alias-substituted form. -/
theorem filterNames_congr_entry {x y : String}
    (hroot : (rootMarker <:+: normalizeChars x.data) ↔
      (rootMarker <:+: normalizeChars y.data))
    (halias : applyAliases (normalizeChars x.data) =
      applyAliases (normalizeChars y.data))
    (pre post : List String) :
    filterNames (pre ++ x :: post) = filterNames (pre ++ y :: post) := by
  unfold filterNames
  rw [List.foldr_append, List.foldr_append, List.foldr_cons, List.foldr_cons]
  by_cases h : rootMarker <:+: normalizeChars x.data
  · show List.foldr _ (if rootMarker <:+: normalizeChars x.data then _
      else _) pre = List.foldr _ (if rootMarker <:+: normalizeChars y.data
      then _ else _) pre
    rw [if_pos h, if_pos (hroot.mp h)]
  · show List.foldr _ (if rootMarker <:+: normalizeChars x.data then _
      else _) pre = List.foldr _ (if rootMarker <:+: normalizeChars y.data
      then _ else _) pre
    rw [if_neg h, if_neg (fun hc => h (hroot.mpr hc)), halias]

/-- Resolution only depends on the query through its non-emptiness and its
filtered form. -/
theorem find_kato_code_congr (m : KatoMatcher) {ns₁ ns₂ : List String}
    (h1 : ns₁ ≠ []) (h2 : ns₂ ≠ [])
    (h : filterNames ns₁ = filterNames ns₂) :
    find_kato_code m ns₁ = find_kato_code m ns₂ := by
  cases ns₁ with
  | nil => exact absurd rfl h1
  | cons a l₁ =>
    cases ns₂ with
    | nil => exact absurd rfl h2
    | cons b l₂ =>
      show (match filterNames (a :: l₁) with
        | [] => none
        | f :: fs => walk m.kato_by_code m.kato_tree (f :: fs)
            ((f :: fs).getLast (List.cons_ne_nil f fs)) none) =
        (match filterNames (b :: l₂) with
        | [] => none
        | f :: fs => walk m.kato_by_code m.kato_tree (f :: fs)
            ((f :: fs).getLast (List.cons_ne_nil f fs)) none)
      rw [h]

/-- C8 counterexample: the entry `нур-султанұр-сұлтан` contains the alias
`нұр-сұлтан` (overlapping a `нур-султан` occurrence on the shared `н`);
replacing that substring with `астана` gives `нур-султаастана`, the
root-marker status is unchanged, yet the two queries resolve differently
(`Q1` versus no match), because the alias loop replaces `нур-султан`
first. -/
theorem C8_counterexample :
    ("нұр-сұлтан".data <:+: normalizeChars "нур-султанұр-сұлтан".data) ∧
    normalizeChars "нур-султаастана".data =
      pyReplace (normalizeChars "нур-султанұр-сұлтан".data)
        "нұр-сұлтан".data "астана".data ∧
    ((rootMarker <:+: normalizeChars "нур-султанұр-сұлтан".data) ↔
      (rootMarker <:+: normalizeChars "нур-султаастана".data)) ∧
    find_kato_code trapM ["нур-султанұр-сұлтан"] = some "Q1" ∧
    find_kato_code trapM ["нур-султаастана"] = none := by
  refine ⟨by decide, by decide, by decide, by decide, by decide⟩

/-- C8 (amended): for a fixed hierarchy, replacing in one query entry every
occurrence of `нур-султан` by `астана` (Python-style left-to-right
replace-all) does not change the resolution result, provided the entry's
root-marker status is unchanged; the same holds for the alias `нұр-сұлтан`
provided the entry's normalized form does not also contain `нур-султан`
(which the alias loop would replace first). -/
theorem C8_amended :
    (∀ (m : KatoMatcher) (pre post : List String) (x y : String),
        "нур-султан".data <:+: normalizeChars x.data →
        normalizeChars y.data =
          pyReplace (normalizeChars x.data) "нур-султан".data "астана".data →
        ((rootMarker <:+: normalizeChars x.data) ↔
          (rootMarker <:+: normalizeChars y.data)) →
        find_kato_code m (pre ++ x :: post) =
          find_kato_code m (pre ++ y :: post)) ∧
    (∀ (m : KatoMatcher) (pre post : List String) (x y : String),
        "нұр-сұлтан".data <:+: normalizeChars x.data →
        ¬ "нур-султан".data <:+: normalizeChars x.data →
        normalizeChars y.data =
          pyReplace (normalizeChars x.data) "нұр-сұлтан".data "астана".data →
        ((rootMarker <:+: normalizeChars x.data) ↔
          (rootMarker <:+: normalizeChars y.data)) →
        find_kato_code m (pre ++ x :: post) =
          find_kato_code m (pre ++ y :: post)) := by
  constructor
  · intro m pre post x y _ hy hroot
    apply find_kato_code_congr m (by simp) (by simp)
    apply filterNames_congr_entry hroot _ pre post
    rw [applyAliases_eq, applyAliases_eq, hy, pyReplace_a1_idem]
  · intro m pre post x y _ hx1 hy hroot
    apply find_kato_code_congr m (by simp) (by simp)
    apply filterNames_congr_entry hroot _ pre post
    rw [applyAliases_eq, applyAliases_eq, hy]
    rw [pyReplace_of_absent _ hx1]
    rw [pyReplace_of_absent _ (pyReplace_a2_keeps_a1_free hx1),
      pyReplace_a2_idem]

/-- Closed instance of `C8_amended`: `Нур-Султан` resolves like `Астана`,
and `Нұр-Сұлтан` resolves like `Астана`, on the one-record hierarchy. -/
theorem C8_witness :
    find_kato_code astM (["Нур-Султан"] : List String) =
      find_kato_code astM (["Астана"] : List String) ∧
    find_kato_code astM (["Нұр-Сұлтан"] : List String) =
      find_kato_code astM (["Астана"] : List String) :=
  ⟨C8_amended.1 astM [] [] "Нур-Султан" "Астана"
      (by decide) (by decide) (by decide),
   C8_amended.2 astM [] [] "Нұр-Сұлтан" "Астана"
      (by decide) (by decide) (by decide) (by decide)⟩

/-- Closed instance of `C10_codes`: the resolved code `B` and the
parent-scoped hit `B` both come from the input record list. -/
theorem C10_witness :
    (∃ r ∈ exRecords, r.code = "B") ∧ ∃ r ∈ exRecords, r.code = "A" :=
  ⟨(C10_codes exRecords "B").1
      ["Казахстан", "Кызылординская область", "Шиелі район"] (by decide),
   (C10_codes exRecords "A").2 "R" "Кызылординская обл." (by decide)⟩

end Kato
